import Mathlib

/-
Shallow embedding of the Mastermind deduction engine of the repository
guess_a_number: the scoring function, the code-space generation, the
candidate reduction and the session commands built on them, translated
from guess_a_number.py, guess_a_number_codebreaker.py and
guess_a_number_codemaker.py.
-/

/-- A code is an ordered sequence of integer symbols (a Python tuple of ints). -/
abbrev Code := List Nat

/-- Count of positions where the two codes agree, as counted by the scoring
loop `for x, y in zip(a, b): if x == y`. -/
def countExact (a b : Code) : Nat :=
  (a.zip b).countP (fun p => decide (p.1 = p.2))

/-- `sum((Counter(a) & Counter(b)).values())`: the Python Counter intersection
keeps the minimum of the two multiplicities of every symbol, so summing its
values is the cardinality of the multiset intersection. -/
def countInter (a b : Code) : Nat :=
  Multiset.card ((a : Multiset Nat) ∩ (b : Multiset Nat))

/-- The same quantity written as a sum over symbols of
min(count in guess, count in target); `countInter_eq_sumMinCounts` below
identifies the two. -/
def sumMinCounts (a b : Code) : Nat :=
  (a.dedup.map (fun s => min (a.count s) (b.count s))).sum

/-- One iteration of the scoring loop body: `if x == y: result = result[1:] + '+'`. -/
def scoreStep (result : List Char) (p : Nat × Nat) : List Char :=
  if p.1 = p.2 then result.drop 1 ++ ['+'] else result

/-- `SuperHirn.score` (textually identical to `compare_codes` in the two
game-play scripts): start from `'o'` repeated once per element of the Counter
intersection, then for every exact position drop one leading character and
append `'+'`.  The ValueError raised on unequal lengths is modelled by
returning none. -/
def score (a b : Code) : Option (List Char) :=
  if a.length = b.length then
    some ((a.zip b).foldl scoreStep (List.replicate (countInter a b) 'o'))
  else none

/-- `SuperHirn.calculate_remaining_codes` (the same filter as `reduce_choices`
in the codebreaker script): keep the candidates whose score against the probe
equals the observed feedback and which differ from the probe.  A ValueError
escaping from `score` aborts the whole comprehension, modelled by none. -/
def calculate_remaining_codes (remaining : List Code) (guess : Code)
    (feedback : List Char) : Option (List Code) :=
  match remaining with
  | [] => some []
  | c :: rest =>
    match score c guess with
    | none => none
    | some f =>
      (calculate_remaining_codes rest guess feedback).map
        (fun r => if f = feedback ∧ c ≠ guess then c :: r else r)

/-- `itertools.product(range(colors), repeat=pins)`: every pins-length tuple
over the palette, the leftmost position varying slowest. -/
def allCodes (colors : Nat) : Nat → List Code
  | 0 => [[]]
  | p + 1 => (List.range colors).flatMap (fun d => (allCodes colors p).map (fun r => d :: r))

/-- `itertools.permutations(pool, p)` for a duplicate-free pool: pick each
first element in pool order, then permute the remaining pool elements. -/
def allPerms : Nat → List Nat → List Code
  | 0, _ => [[]]
  | p + 1, l => l.flatMap (fun x => (allPerms p (l.erase x)).map (fun r => x :: r))

/-- `SuperHirn.calculate_possible_codes` (the same dispatch as `init` in the
game-play scripts): a dict of lambdas keyed by the repetition flag, choosing
between the full Cartesian product and the repetition-free permutations. -/
def calculate_possible_codes (rep : Bool) (colors pins : Nat) : List Code :=
  if rep then allCodes colors pins
  else allPerms pins (List.range colors)

/-- `list('0123456789')`, the legal digit tokens, as character lists. -/
def digitStrings : List (List Char) :=
  [['0'], ['1'], ['2'], ['3'], ['4'], ['5'], ['6'], ['7'], ['8'], ['9']]

/-- `int(d)` on a decimal digit token. -/
def tokenToInt (d : List Char) : Nat :=
  d.foldl (fun n c => 10 * n + (c.toNat - 48)) 0

/-- `SuperHirn.split_args`: `arg.split()` splits on blanks and discards empty
tokens, and the function returns the count together with the tokens. -/
def split_args (arg : List Char) : Nat × List (List Char) :=
  let argv := (arg.splitOn ' ').filter (fun s => decide (s ≠ []))
  (argv.length, argv)

/-- `SuperHirn.got_all_valid_digits`: validate the token count against the
pins setting, every token against the first `colors` digit strings, then the
repetition rule (`if not repeat and len(argv) == len(set(argv)): return None`,
exactly as the source has it), and finally convert the tokens to ints. -/
def got_all_valid_digits (rep : Bool) (colors pins : Nat) (arg : List Char) :
    Option (List Nat) :=
  let argcv := split_args arg
  if argcv.1 ≠ pins then none
  else if argcv.2.any (fun d => decide (d ∉ digitStrings.take colors)) then none
  else if rep = false ∧ argcv.2.length = argcv.2.dedup.length then none
  else some (argcv.2.map tokenToInt)

/-- `SuperHirn.got_valid_feedback_string`: reject the empty input, read the
lone `'-'` as the empty feedback, reject foreign characters, canonicalise to
all `'o'` first then all `'+'`, and reject over-long feedback. -/
def got_valid_feedback_string (pins : Nat) (arg : List Char) : Option (List Char) :=
  if arg = [] then none
  else if arg = ['-'] then some []
  else if arg.any (fun ch => decide (ch ≠ 'o' ∧ ch ≠ '+')) then none
  else
    let canon := List.replicate (arg.count 'o') 'o' ++ List.replicate (arg.count '+') '+'
    if pins < canon.length then none else some canon

/-- The mutable fields of the `SuperHirn` shell that the `do_feedback` command
touches; the settings dict is flattened to the two entries the command reads. -/
structure Session where
  sessionMode : Option String
  settingsPins : Nat
  settingsLimit : Nat
  secretCode : Code
  remainingCodes : List Code
  guesses : Nat
  board : List (Nat × Code × List Char)
  gameOver : Bool
  cracked : Bool
deriving DecidableEq

/-- `SuperHirn.do_feedback`, parameterised by `pick`, the model of
`random.choice` (which raises IndexError exactly on an empty list, so any
faithful `pick` returns none exactly there).  The early-return hint paths
leave the state unchanged; the ValueError from `score` and the IndexError
from `choice` are modelled by an overall none. -/
def do_feedback (pick : List Code → Option Code) (st : Session)
    (arg : List Char) : Option Session :=
  if st.sessionMode ≠ some "codebreaker" then some st
  else if st.gameOver then some st
  else if st.settingsLimit ≤ st.guesses then some st
  else if st.cracked then some st
  else
    match got_valid_feedback_string st.settingsPins arg with
    | none => some st
    | some answer =>
      match calculate_remaining_codes st.remainingCodes st.secretCode answer with
      | none => none
      | some remaining =>
        let st1 : Session :=
          { st with guesses := st.guesses + 1, remainingCodes := remaining,
                    board := st.board ++ [(st.guesses + 1, st.secretCode, answer)] }
        if answer = List.replicate st.settingsPins '+' then
          some { st1 with cracked := true, gameOver := true }
        else if st.settingsLimit ≤ st.guesses + 1 then
          some { st1 with gameOver := true }
        else
          match pick remaining with
          | none => none
          | some g => some { st1 with secretCode := g }

/-- The codebreaker-session state that the guess-repetition argument needs:
the remaining candidate pool, the guess currently offered (held in the
`secret_code` field by the source), and the probes already consumed. -/
structure CBState where
  remaining : List Code
  guess : Code
  history : List Code

/-- One accepted feedback round of `do_feedback` on its non-terminal path:
the pool is reduced with the current guess as probe, and the next guess is
drawn (by `random.choice`, hence nondeterministically) from the reduced
pool. -/
inductive CBStep : CBState → CBState → Prop
  | feedback (s : CBState) (answer : List Char) (R : List Code) (g : Code)
      (hR : calculate_remaining_codes s.remaining s.guess answer = some R)
      (hg : g ∈ R) :
      CBStep s ⟨R, g, s.guess :: s.history⟩

/-- `SuperHirn.do_codebreaker`: the pool starts as a copy of the possible
codes, the first guess is drawn from it, and no probe has been consumed. -/
def CBInit (possible : List Code) (s : CBState) : Prop :=
  s.remaining = possible ∧ s.guess ∈ possible ∧ s.history = []

lemma cons_inter_cons_self (x : Nat) (s t : Multiset Nat) :
    (x ::ₘ s) ∩ (x ::ₘ t) = x ::ₘ (s ∩ t) := by
  ext c
  simp only [Multiset.count_inter, Multiset.count_cons]
  split_ifs <;> omega

lemma countInter_cons_eq (x : Nat) (a b : Code) :
    countInter (x :: a) (x :: b) = countInter a b + 1 := by
  unfold countInter
  rw [show ((x :: a : List Nat) : Multiset Nat) = x ::ₘ (a : Multiset Nat) from rfl,
    show ((x :: b : List Nat) : Multiset Nat) = x ::ₘ (b : Multiset Nat) from rfl,
    cons_inter_cons_self, Multiset.card_cons]

lemma countInter_le_cons (x y : Nat) (a b : Code) :
    countInter a b ≤ countInter (x :: a) (y :: b) := by
  apply Multiset.card_le_card
  rw [show ((x :: a : List Nat) : Multiset Nat) = x ::ₘ (a : Multiset Nat) from rfl,
    show ((y :: b : List Nat) : Multiset Nat) = y ::ₘ (b : Multiset Nat) from rfl]
  exact Multiset.le_inter
    ((Multiset.inter_le_left _ _).trans (Multiset.le_cons_self _ _))
    ((Multiset.inter_le_right _ _).trans (Multiset.le_cons_self _ _))

lemma countExact_cons (x y : Nat) (a b : Code) :
    countExact (x :: a) (y :: b) = countExact a b + if x = y then 1 else 0 := by
  unfold countExact
  rw [List.zip_cons_cons, List.countP_cons]
  simp

lemma countExact_nil_right (a : Code) : countExact a [] = 0 := by
  unfold countExact
  simp

lemma countExact_le_countInter (a : Code) : ∀ b : Code, countExact a b ≤ countInter a b := by
  induction a with
  | nil => intro b; unfold countExact; simp
  | cons x a ih =>
    intro b
    cases b with
    | nil => rw [countExact_nil_right]; exact Nat.zero_le _
    | cons y b =>
      rcases eq_or_ne x y with rfl | h
      · rw [countExact_cons, countInter_cons_eq, if_pos rfl]
        exact Nat.add_le_add_right (ih b) 1
      · rw [countExact_cons, if_neg h, Nat.add_zero]
        exact (ih b).trans (countInter_le_cons x y a b)

lemma foldl_scoreStep (ps : List (Nat × Nat)) :
    ∀ k m : Nat, ps.countP (fun p => decide (p.1 = p.2)) ≤ k →
      ps.foldl scoreStep (List.replicate k 'o' ++ List.replicate m '+')
        = List.replicate (k - ps.countP (fun p => decide (p.1 = p.2))) 'o'
          ++ List.replicate (m + ps.countP (fun p => decide (p.1 = p.2))) '+' := by
  induction ps with
  | nil => intro k m h; simp
  | cons q ps ih =>
    intro k m h
    rcases q with ⟨x, y⟩
    rw [List.countP_cons] at h ⊢
    rcases eq_or_ne x y with rfl | hxy
    · have hcond : (fun p : Nat × Nat => decide (p.1 = p.2)) (x, x) = true := by simp
      rw [if_pos hcond] at h ⊢
      obtain ⟨k1, rfl⟩ : ∃ k1, k = k1 + 1 := ⟨k - 1, by omega⟩
      rw [List.foldl_cons]
      have hstep : scoreStep (List.replicate (k1 + 1) 'o' ++ List.replicate m '+') (x, x)
          = List.replicate k1 'o' ++ List.replicate (m + 1) '+' := by
        unfold scoreStep
        rw [if_pos rfl, List.replicate_succ, List.cons_append, List.drop_succ_cons,
          List.drop_zero, List.append_assoc]
        rw [show List.replicate m '+' ++ ['+'] = List.replicate (m + 1) '+' from
          (List.replicate_succ' m '+').symm]
      rw [hstep, ih k1 (m + 1) (by omega)]
      have e1 : k1 + 1 - (ps.countP (fun p => decide (p.1 = p.2)) + 1)
          = k1 - ps.countP (fun p => decide (p.1 = p.2)) := by omega
      have e2 : m + (ps.countP (fun p => decide (p.1 = p.2)) + 1)
          = m + 1 + ps.countP (fun p => decide (p.1 = p.2)) := by omega
      rw [e1, e2]
    · have hif : (if decide ((x, y).1 = (x, y).2) = true then 1 else 0) = 0 := by
        simp [hxy]
      rw [hif] at h ⊢
      rw [List.foldl_cons]
      have hstep : scoreStep (List.replicate k 'o' ++ List.replicate m '+') (x, y)
          = List.replicate k 'o' ++ List.replicate m '+' := by
        unfold scoreStep
        rw [if_neg hxy]
      rw [hstep, ih k m (by omega), Nat.add_zero]

/-- The closed form of the scoring result on equal-length codes: the
color-only matches rendered first as `'o'` characters, the exact matches
after them as `'+'` characters. -/
lemma score_eq_some (a b : Code) (h : a.length = b.length) :
    score a b = some (List.replicate (countInter a b - countExact a b) 'o'
      ++ List.replicate (countExact a b) '+') := by
  unfold score
  rw [if_pos h]
  congr 1
  have h2 : countExact a b ≤ countInter a b := countExact_le_countInter a b
  have h3 := foldl_scoreStep (a.zip b) (countInter a b) 0 h2
  rw [List.replicate_zero, List.append_nil, Nat.zero_add] at h3
  unfold countExact
  exact h3

lemma countInter_comm (a b : Code) : countInter a b = countInter b a := by
  unfold countInter
  rw [Multiset.inter_comm]

lemma countExact_comm (a b : Code) : countExact a b = countExact b a := by
  unfold countExact
  rw [← List.zip_swap b a, List.countP_map]
  apply List.countP_congr
  intro p _
  rcases p with ⟨x, y⟩
  simp [Function.comp, eq_comm]

/-- The Counter-intersection cardinality written as the spec writes it: a sum
over symbols of the minimum of the two multiplicities. -/
lemma countInter_eq_sumMinCounts (a b : Code) : countInter a b = sumMinCounts a b := by
  unfold countInter sumMinCounts
  rw [← Multiset.toFinset_sum_count_eq]
  rw [Finset.sum_subset
    (Multiset.toFinset_subset.mpr
      (Multiset.subset_of_le (Multiset.inter_le_left (a : Multiset Nat) b)))
    (fun x _ hx => Multiset.count_eq_zero_of_not_mem
      (fun hmem => hx (Multiset.mem_toFinset.mpr hmem)))]
  have hcongr : ∀ x ∈ (a : Multiset Nat).toFinset,
      Multiset.count x ((a : Multiset Nat) ∩ b) = min (a.count x) (b.count x) := by
    intro x _
    rw [Multiset.count_inter, Multiset.coe_count, Multiset.coe_count]
  rw [Finset.sum_congr rfl hcongr]
  have hfin : (a : Multiset Nat).toFinset = a.dedup.toFinset := by
    rw [List.toFinset_coe]
    ext x
    simp [List.mem_dedup]
  rw [hfin, List.sum_toFinset _ (List.nodup_dedup a)]

lemma countExact_le_length (a b : Code) : countExact a b ≤ a.length := by
  unfold countExact
  exact (List.countP_le_length _).trans (by rw [List.length_zip]; omega)

lemma eq_of_countExact_eq_length (a : Code) : ∀ b : Code, a.length = b.length →
    countExact a b = a.length → a = b := by
  induction a with
  | nil =>
    intro b h _
    cases b with
    | nil => rfl
    | cons y b => simp at h
  | cons x a ih =>
    intro b h hE
    cases b with
    | nil => simp at h
    | cons y b =>
      rw [countExact_cons, List.length_cons] at hE
      rw [List.length_cons, List.length_cons] at h
      have hle : countExact a b ≤ a.length := countExact_le_length a b
      rcases eq_or_ne x y with rfl | hxy
      · rw [if_pos rfl] at hE
        rw [ih b (by omega) (by omega)]
      · rw [if_neg hxy] at hE
        omega

/-- Only the probe itself scores all-exact against the probe. -/
lemma eq_of_score_all_plus (a b : Code) (h : a.length = b.length)
    (hs : score a b = some (List.replicate b.length '+')) : a = b := by
  rw [score_eq_some a b h] at hs
  have hs2 : List.replicate (countInter a b - countExact a b) 'o'
      ++ List.replicate (countExact a b) '+' = List.replicate b.length '+' :=
    Option.some.inj hs
  have ho := congrArg (List.count 'o') hs2
  rw [List.count_append, List.count_replicate_self, List.count_replicate,
    List.count_replicate] at ho
  rw [show (('+' : Char) == 'o') = false by decide] at ho
  simp only [Bool.false_eq_true, if_false] at ho
  have hlen := congrArg List.length hs2
  rw [List.length_append, List.length_replicate, List.length_replicate,
    List.length_replicate] at hlen
  have hET := countExact_le_countInter a b
  exact eq_of_countExact_eq_length a b h (by omega)

/-- On a pool of codes of the probe's length no ValueError is raised and the
reduction is exactly the source's filter. -/
lemma calculate_remaining_codes_eq_filter {remaining : List Code} {guess : Code}
    (feedback : List Char) (h : ∀ c ∈ remaining, c.length = guess.length) :
    calculate_remaining_codes remaining guess feedback
      = some (remaining.filter
          (fun c => decide (score c guess = some feedback) && decide (c ≠ guess))) := by
  induction remaining with
  | nil => rfl
  | cons d rest ih =>
    have hd : d.length = guess.length := h d (List.mem_cons_self d rest)
    have hrest : ∀ x ∈ rest, x.length = guess.length :=
      fun x hx => h x (List.mem_cons_of_mem d hx)
    obtain ⟨f, hf⟩ : ∃ f, score d guess = some f := by
      unfold score
      rw [if_pos hd]
      exact ⟨_, rfl⟩
    unfold calculate_remaining_codes
    rw [hf, ih hrest]
    dsimp only
    rw [Option.map_some', List.filter_cons]
    by_cases hcond : f = feedback ∧ d ≠ guess
    · rw [if_pos hcond]
      have hb : (decide (score d guess = some feedback) && decide (d ≠ guess)) = true := by
        rw [hf, hcond.1]
        simp [hcond.2]
      rw [hb, if_pos rfl]
    · rw [if_neg hcond]
      have hb : (decide (score d guess = some feedback) && decide (d ≠ guess)) = false := by
        rw [hf]
        rcases not_and_or.mp hcond with h1 | h1 <;> simp [h1]
      rw [hb]
      simp

/-- Soundness of a successful reduction, with no assumption on the pool:
every survivor was a candidate, scores the observed feedback against the
probe, and is not the probe. -/
lemma calculate_remaining_codes_mem {remaining : List Code} {guess : Code}
    {feedback : List Char} {R : List Code}
    (hR : calculate_remaining_codes remaining guess feedback = some R) :
    ∀ c ∈ R, c ∈ remaining ∧ score c guess = some feedback ∧ c ≠ guess := by
  induction remaining generalizing R with
  | nil =>
    unfold calculate_remaining_codes at hR
    cases Option.some.inj hR
    intro c hc
    exact absurd hc (List.not_mem_nil c)
  | cons d rest ih =>
    unfold calculate_remaining_codes at hR
    cases hsd : score d guess with
    | none => rw [hsd] at hR; exact absurd hR (by simp)
    | some f =>
      rw [hsd] at hR
      dsimp only at hR
      cases hrec : calculate_remaining_codes rest guess feedback with
      | none => rw [hrec] at hR; exact absurd hR (by simp)
      | some R0 =>
        rw [hrec, Option.map_some'] at hR
        cases Option.some.inj hR
        intro c hc
        by_cases hcond : f = feedback ∧ d ≠ guess
        · rw [if_pos hcond] at hc
          rcases List.mem_cons.mp hc with rfl | hc0
          · exact ⟨List.mem_cons_self _ _, by rw [hsd, hcond.1], hcond.2⟩
          · obtain ⟨h1, h2, h3⟩ := ih hrec c hc0
            exact ⟨List.mem_cons_of_mem d h1, h2, h3⟩
        · rw [if_neg hcond] at hc
          obtain ⟨h1, h2, h3⟩ := ih hrec c hc
          exact ⟨List.mem_cons_of_mem d h1, h2, h3⟩

lemma allCodes_length (colors : Nat) : ∀ p : Nat, (allCodes colors p).length = colors ^ p := by
  intro p
  induction p with
  | zero => rfl
  | succ p ih =>
    rw [allCodes, List.length_flatMap]
    have hmap : (List.range colors).map (List.length ∘ fun d => (allCodes colors p).map (fun r => d :: r))
        = (List.range colors).map (fun _ => colors ^ p) := by
      apply List.map_congr_left
      intro d _
      simp [ih]
    rw [hmap, List.map_const', List.length_range, List.sum_const_nat, pow_succ, Nat.mul_comm]

lemma allPerms_nil_of_lt : ∀ (p : Nat) (l : List Nat), l.length < p → allPerms p l = [] := by
  intro p
  induction p with
  | zero => intro l h; omega
  | succ p ih =>
    intro l h
    rw [allPerms, List.flatMap_eq_nil_iff]
    intro x hx
    rw [ih (l.erase x) ?_, List.map_nil]
    rw [List.length_erase_of_mem hx]
    have : 1 ≤ l.length := List.length_pos.mpr (List.ne_nil_of_mem hx)
    omega

lemma allPerms_length : ∀ (p : Nat) (l : List Nat), l.Nodup →
    (allPerms p l).length = l.length.descFactorial p := by
  intro p
  induction p with
  | zero => intro l _; rfl
  | succ p ih =>
    intro l hnd
    rw [allPerms, List.length_flatMap]
    have hmap : l.map (List.length ∘ fun x => (allPerms p (l.erase x)).map (fun r => x :: r))
        = l.map (fun _ => (l.length - 1).descFactorial p) := by
      apply List.map_congr_left
      intro x hx
      simp only [Function.comp, List.length_map]
      rw [ih (l.erase x) (hnd.erase x), List.length_erase_of_mem hx]
    rw [hmap, List.map_const', List.sum_const_nat]
    cases l with
    | nil => simp
    | cons y l0 =>
      rw [List.length_cons, Nat.add_sub_cancel, Nat.succ_descFactorial_succ]

/-- Invariant of a codebreaker session: the offered guesses are pairwise
distinct and every consumed probe has left the candidate pool. -/
def CBInv (s : CBState) : Prop :=
  (s.guess :: s.history).Nodup ∧ ∀ g ∈ s.history, g ∉ s.remaining

lemma CBStep_inv {s t : CBState} (hst : CBStep s t) (h : CBInv s) : CBInv t := by
  obtain ⟨hnd, hhist⟩ := h
  cases hst with
  | feedback answer R g hR hg =>
    have hmem := calculate_remaining_codes_mem hR
    refine ⟨?_, ?_⟩
    · show (g :: (s.guess :: s.history)).Nodup
      rw [List.nodup_cons]
      refine ⟨fun hgmem => ?_, hnd⟩
      rcases List.mem_cons.mp hgmem with hEq | hmem2
      · exact (hmem g hg).2.2 hEq
      · exact hhist g hmem2 (hmem g hg).1
    · show ∀ x ∈ s.guess :: s.history, x ∉ R
      intro x hx
      rcases List.mem_cons.mp hx with rfl | hx2
      · exact fun hxR => (hmem _ hxR).2.2 rfl
      · exact fun hxR => hhist x hx2 (hmem x hxR).1

lemma CB_reach_inv {s t : CBState} (h : Relation.ReflTransGen CBStep s t)
    (h0 : CBInv s) : CBInv t := by
  induction h with
  | refl => exact h0
  | tail _ hstep ih => exact CBStep_inv hstep ih

lemma calculate_possible_codes_true_length (c p : Nat) :
    (calculate_possible_codes true c p).length = c ^ p := by
  unfold calculate_possible_codes
  rw [if_pos rfl]
  exact allCodes_length c p

lemma calculate_possible_codes_false_length (c p : Nat) :
    (calculate_possible_codes false c p).length = c.descFactorial p := by
  unfold calculate_possible_codes
  rw [if_neg (by simp)]
  rw [allPerms_length p (List.range c) (List.nodup_range c), List.length_range]

/-- C1: for equal-length codes the score exists and carries exactly
`countExact` many `'+'` characters and, as `'o'` characters, the sum over
symbols of the minimum multiplicities diminished by the exact count; in
particular the guess (1,2,2,3) against the target (1,1,3,2) scores one exact
and two color-only matches. -/
theorem C1_score_counts :
    (∀ a b : Code, a.length = b.length →
      ∃ r, score a b = some r ∧ r.count '+' = countExact a b ∧
        r.count 'o' = sumMinCounts a b - countExact a b) ∧
    (∃ r, score [1, 2, 2, 3] [1, 1, 3, 2] = some r ∧
      r.count '+' = 1 ∧ r.count 'o' = 2) := by
  constructor
  · intro a b h
    refine ⟨_, score_eq_some a b h, ?_, ?_⟩
    · simp [List.count_append, List.count_replicate_self, List.count_replicate]
    · rw [← countInter_eq_sumMinCounts]
      simp [List.count_append, List.count_replicate_self, List.count_replicate]
  · exact ⟨['o', 'o', '+'], by decide, by decide, by decide⟩

theorem C1_witness :
    ([1, 2, 2, 3] : Code).length = ([1, 1, 3, 2] : Code).length ∧
    ∃ r, score [1, 2, 2, 3] [1, 1, 3, 2] = some r ∧
      r.count '+' = countExact [1, 2, 2, 3] [1, 1, 3, 2] ∧
      r.count 'o' = sumMinCounts [1, 2, 2, 3] [1, 1, 3, 2]
        - countExact [1, 2, 2, 3] [1, 1, 3, 2] :=
  ⟨rfl, C1_score_counts.1 [1, 2, 2, 3] [1, 1, 3, 2] rfl⟩

/-- C2: on a candidate pool of the probe's code length the reduction returns
exactly the candidates that score the observed feedback against the probe and
differ from the probe, and hence a subset of the pool with the probe
removed. -/
theorem C2_reduce_is_exact_filter (S : List Code) (p : Code) (f : List Char)
    (h : ∀ c ∈ S, c.length = p.length) :
    ∃ R, calculate_remaining_codes S p f = some R ∧
      (∀ c, c ∈ R ↔ c ∈ S ∧ score c p = some f ∧ c ≠ p) ∧
      (∀ c ∈ R, c ∈ S ∧ c ≠ p) := by
  refine ⟨_, calculate_remaining_codes_eq_filter f h, fun c => ?_, fun c hc => ?_⟩
  · rw [List.mem_filter]
    simp only [Bool.and_eq_true, decide_eq_true_eq]
  · rw [List.mem_filter] at hc
    simp only [Bool.and_eq_true, decide_eq_true_eq] at hc
    exact ⟨hc.1, hc.2.2⟩

theorem C2_witness :
    (∀ c ∈ ([[0, 1], [1, 0], [1, 1]] : List Code), c.length = ([1, 1] : Code).length) ∧
    ∃ R, calculate_remaining_codes [[0, 1], [1, 0], [1, 1]] [1, 1] ['+'] = some R ∧
      (∀ c, c ∈ R ↔ c ∈ ([[0, 1], [1, 0], [1, 1]] : List Code) ∧
        score c [1, 1] = some ['+'] ∧ c ≠ [1, 1]) ∧
      (∀ c ∈ R, c ∈ ([[0, 1], [1, 0], [1, 1]] : List Code) ∧ c ≠ [1, 1]) :=
  ⟨by decide, C2_reduce_is_exact_filter [[0, 1], [1, 0], [1, 1]] [1, 1] ['+'] (by decide)⟩

/-- C3 as stated is false: with repetition forbidden and a palette smaller
than the code length, generation does not fail at all — `permutations`
produces the empty list and the call returns it as an ordinary result. -/
theorem C3_counterexample : calculate_possible_codes false 2 3 = ([] : List Code) := by
  decide

/-- C3 amended: when repetition is forbidden and the palette is smaller than
the code length, generation raises no condition and returns the empty list, a
result the caller could proceed with. -/
theorem C3_amended (c p : Nat) (h : c < p) :
    calculate_possible_codes false c p = [] := by
  unfold calculate_possible_codes
  rw [if_neg (by simp)]
  exact allPerms_nil_of_lt p (List.range c) (by simpa using h)

theorem C3_witness : 2 < 3 ∧ calculate_possible_codes false 2 3 = [] :=
  ⟨by decide, C3_amended 2 3 (by decide)⟩

/-- C4 as stated is false: the rendering puts the `'o'` characters first and
the `'+'` characters last (exact=2, colorOnly=1 renders "o++", not "++o"),
and an all-miss feedback renders as the empty string, not as "-". -/
theorem C4_counterexample :
    score [1, 2, 3, 4] [1, 2, 4, 5] = some ['o', '+', '+'] ∧
    (['o', '+', '+'] : List Char) ≠ ['+', '+', 'o'] ∧
    score [1, 2, 3, 4] [5, 6, 7, 8] = some [] ∧
    (([] : List Char) ≠ ['-']) := by decide

/-- C4 amended: the canonical rendering is one `'o'` per color-only match
followed by one `'+'` per exact match, an all-miss feedback renders as the
empty string, and the `'-'` sentinel exists only on the input side, where the
feedback parser reads it as the empty feedback. -/
theorem C4_feedback_rendering_amended (a b : Code) (h : a.length = b.length) :
    score a b = some (List.replicate (sumMinCounts a b - countExact a b) 'o'
      ++ List.replicate (countExact a b) '+') ∧
    ∀ pins : Nat, got_valid_feedback_string pins ['-'] = some [] := by
  refine ⟨?_, fun pins => rfl⟩
  rw [score_eq_some a b h, countInter_eq_sumMinCounts]

theorem C4_witness :
    ([1, 2, 3, 4] : Code).length = ([1, 2, 4, 5] : Code).length ∧
    (score [1, 2, 3, 4] [1, 2, 4, 5]
        = some (List.replicate (sumMinCounts [1, 2, 3, 4] [1, 2, 4, 5]
            - countExact [1, 2, 3, 4] [1, 2, 4, 5]) 'o'
          ++ List.replicate (countExact [1, 2, 3, 4] [1, 2, 4, 5]) '+') ∧
      ∀ pins : Nat, got_valid_feedback_string pins ['-'] = some []) :=
  ⟨rfl, C4_feedback_rendering_amended [1, 2, 3, 4] [1, 2, 4, 5] rfl⟩

/-- C5 as stated is false: in a non-terminal round whose reduction leaves no
candidate, `do_feedback` stores the empty pool without raising any condition
and then fails when the next guess is requested from the empty pool
(`random.choice` raises IndexError there, modelled by the picker returning
none on the empty list). -/
theorem C5_counterexample :
    calculate_remaining_codes [[0, 0, 0, 0]] [0, 0, 0, 0] [] = some [] ∧
    do_feedback List.head?
      ⟨some "codebreaker", 4, 12, [0, 0, 0, 0], [[0, 0, 0, 0]], 0, [], false, false⟩
      ['-'] = none := by decide

/-- C5 amended: whenever a running, uncracked codebreaker session receives a
valid non-terminal feedback whose reduction empties the candidate pool and
another round remains, `do_feedback` surfaces no InconsistentFeedback
condition — it silently keeps the empty pool and the command fails at the
point where the next guess is drawn from it. -/
theorem C5_amended (pick : List Code → Option Code) (st : Session)
    (arg answer : List Char)
    (hmode : st.sessionMode = some "codebreaker") (hover : st.gameOver = false)
    (hcr : st.cracked = false) (hlim : st.guesses + 1 < st.settingsLimit)
    (hans : got_valid_feedback_string st.settingsPins arg = some answer)
    (hterm : answer ≠ List.replicate st.settingsPins '+')
    (hred : calculate_remaining_codes st.remainingCodes st.secretCode answer = some [])
    (hpick : pick [] = none) :
    do_feedback pick st arg = none := by
  unfold do_feedback
  rw [hmode, hover, hcr, hans]
  rw [if_neg (by simp : ¬(some "codebreaker" ≠ some "codebreaker")),
    if_neg (by simp : ¬(false = true)),
    if_neg (by omega : ¬(st.settingsLimit ≤ st.guesses)),
    if_neg (by simp : ¬(false = true))]
  dsimp only
  rw [hred]
  dsimp only
  rw [if_neg hterm, if_neg (by omega : ¬(st.settingsLimit ≤ st.guesses + 1)), hpick]

theorem C5_witness :
    do_feedback List.head?
      ⟨some "codebreaker", 4, 12, [0, 0, 0, 0], [[0, 0, 0, 0]], 0, [], false, false⟩
      ['-'] = none :=
  C5_amended List.head?
    ⟨some "codebreaker", 4, 12, [0, 0, 0, 0], [[0, 0, 0, 0]], 0, [], false, false⟩
    ['-'] [] rfl rfl rfl (by decide) (by decide) (by decide) (by decide) rfl

/-- C6: the claim states the intended behaviour of the validator under the
no-repetition setting, but the source's condition is inverted
(`len(argv) == len(set(argv))` instead of `!=`): the all-distinct guess
"0 1 2 3" is rejected while the repeated-digit guess "0 0 1 2" is
accepted. -/
theorem C6_validator_rejects_distinct :
    got_all_valid_digits false 8 4 "0 1 2 3".data = none ∧
    got_all_valid_digits false 8 4 "0 0 1 2".data = some [0, 0, 1, 2] := by decide

/-- C7: with repetition the code space has paletteSize ^ codeLength elements,
without repetition paletteSize! / (paletteSize - codeLength)! elements, and
the standard 6-color 4-pin space with repetition has 1296 elements. -/
theorem C7_generation_counts :
    (∀ c p : Nat, (calculate_possible_codes true c p).length = c ^ p) ∧
    (∀ c p : Nat, p ≤ c → (calculate_possible_codes false c p).length
      = Nat.factorial c / Nat.factorial (c - p)) ∧
    (calculate_possible_codes true 6 4).length = 1296 := by
  refine ⟨calculate_possible_codes_true_length, fun c p h => ?_, ?_⟩
  · rw [calculate_possible_codes_false_length, Nat.descFactorial_eq_div h]
  · rw [calculate_possible_codes_true_length]
    norm_num

theorem C7_witness :
    4 ≤ 6 ∧ (calculate_possible_codes false 6 4).length
      = Nat.factorial 6 / Nat.factorial (6 - 4) :=
  ⟨by decide, C7_generation_counts.2.1 6 4 (by decide)⟩

/-- C8: scoring is symmetric — two equal-length codes score identically in
either order. -/
theorem C8_score_symmetric (a b : Code) (h : a.length = b.length) :
    score a b = score b a := by
  rw [score_eq_some a b h, score_eq_some b a h.symm,
    countExact_comm b a, countInter_comm b a]

theorem C8_witness :
    ([2, 5, 2, 0] : Code).length = ([5, 2, 2, 2] : Code).length ∧
    score [2, 5, 2, 0] [5, 2, 2, 2] = score [5, 2, 2, 2] [2, 5, 2, 0] :=
  ⟨rfl, C8_score_symmetric [2, 5, 2, 0] [5, 2, 2, 2] rfl⟩

/-- C9: reducing any pool of codes of the probe's length with the all-exact
terminal feedback empties the pool — only the probe scores all-exact against
itself, and the probe is excluded. -/
theorem C9_terminal_feedback_empties (S : List Code) (p : Code)
    (h : ∀ c ∈ S, c.length = p.length) :
    calculate_remaining_codes S p (List.replicate p.length '+') = some [] := by
  rw [calculate_remaining_codes_eq_filter _ h]
  congr 1
  rw [List.filter_eq_nil_iff]
  intro c hc
  simp only [Bool.and_eq_true, decide_eq_true_eq, not_and]
  intro hsc hne
  exact absurd (eq_of_score_all_plus c p (h c hc) hsc) hne

theorem C9_witness :
    (∀ c ∈ ([[0, 0], [0, 1], [1, 0], [1, 1]] : List Code),
      c.length = ([0, 1] : Code).length) ∧
    calculate_remaining_codes [[0, 0], [0, 1], [1, 0], [1, 1]] [0, 1]
      (List.replicate ([0, 1] : Code).length '+') = some [] :=
  ⟨by decide, C9_terminal_feedback_empties [[0, 0], [0, 1], [1, 0], [1, 1]] [0, 1] (by decide)⟩

/-- C10: along every codebreaker session — an initial pool copy with a first
guess drawn from it, followed by any number of accepted feedback rounds —
the offered guesses are pairwise distinct: each reduction removes the probe
just used and keeps a subset of the pool, so earlier probes can never be
drawn again. -/
theorem C10_no_repeated_guesses (possible : List Code) (s0 s : CBState)
    (hinit : CBInit possible s0) (hreach : Relation.ReflTransGen CBStep s0 s) :
    (s.guess :: s.history).Nodup := by
  obtain ⟨h1, h2, h3⟩ := hinit
  have h0 : CBInv s0 := by
    refine ⟨?_, ?_⟩ <;> rw [h3] <;> simp
  exact (CB_reach_inv hreach h0).1

theorem C10_witness : (([1] : Code) :: [[0]]).Nodup :=
  C10_no_repeated_guesses [[0], [1]]
    ⟨[[0], [1]], [0], []⟩ ⟨[[1]], [1], [[0]]⟩
    ⟨rfl, by decide, rfl⟩
    (Relation.ReflTransGen.single
      (CBStep.feedback ⟨[[0], [1]], [0], []⟩ [] [[1]] [1] (by decide) (by decide)))
example : score [1, 2, 3, 4] [4, 3, 2, 1] = some ['o', 'o', 'o', 'o'] := by decide
example : score [1, 2, 3, 4] [1, 2, 3, 4] = some ['+', '+', '+', '+'] := by decide
example : (calculate_possible_codes true 3 2).length = 9 := by decide
example : calculate_possible_codes false 2 3 = [] := by decide
example : got_all_valid_digits false 8 4 "0 1 2 3".data = none := by decide
example : got_all_valid_digits false 8 4 "0 0 1 2".data = some [0, 0, 1, 2] := by decide
example : got_valid_feedback_string 4 ['-'] = some [] := by decide
example : got_valid_feedback_string 4 ['+', 'o', '+'] = some ['o', '+', '+'] := by decide
example : calculate_remaining_codes [[0], [1]] [0] [] = some [[1]] := by decide
